import Mathlib

/-!
Verification of the model-selection and recognition logic of the
AIND-Recognizer repository (files my_model_selectors.py and my_recognizer.py).

Modelling conventions (shallow embedding):

* Log-likelihood values returned by the external training oracle (hmmlearn
  GaussianHMM) are floating point numbers; every float is a rational, so score
  values are modelled as rationals.  The float value of numpy.log is modelled
  by an oracle field log : Nat -> Rat.
* The oracle is seeded (random_state is a fixed integer), so fitting a model
  with a given state count on given data is deterministic; fit is therefore a
  pure function Nat -> Data -> Option Model, where none models the fitting
  exception that base_model catches.  Model.score may also raise, modelled by
  Option.
* Recognizer score entries may be the float negative infinity (stored on a
  scoring failure), so stored scores live in WithBot Rat, with bot standing
  for negative infinity.
* Dictionaries iterate in insertion order (Python 3.7+); a dict is modelled
  as an association list in that order.
* The sklearn KFold splitter and the combine_sequences utility are external
  collaborators; they are fields of the data record (kfold, combine).  KFold
  with n_splits = k either raises (modelled none, e.g. when k <= 1) or yields
  a list of (train indices, test indices) pairs.
-/

/-- External training oracle (hmmlearn GaussianHMM plus numpy.log).
fit n d models GaussianHMM(n_components = n, ...).fit applied to data d
(none when fitting raises); score m d models m.score on data d (none when
scoring raises); nFeatures m models m.n_features; log models numpy.log on
the observation count. -/
structure Oracle (M D : Type) where
  fit : Nat → D → Option M
  score : M → D → Option ℚ
  nFeatures : M → Nat
  log : Nat → ℚ

/-- The state a ModelSelector instance carries (my_model_selectors.py,
ModelSelector.__init__): the oracle, the per-word data dictionary
all_word_Xlengths (hwords, insertion ordered), the selected word, its full
(X, lengths) data (fullData), the number of observation frames len(X)
(nObs), the number of sequences len(self.sequences) (numSeqs), the search
bounds and the constant, plus the external fold partitioner and the
combine_sequences utility specialised to this word's sequences. -/
structure WordData (W M D : Type) where
  o : Oracle M D
  hwords : List (W × D)
  thisWord : W
  fullData : D
  nObs : Nat
  numSeqs : Nat
  nConstant : Nat
  minN : Nat
  maxN : Nat
  kfold : Nat → Nat → Option (List (List Nat × List Nat))
  combine : List Nat → D

/-- ModelSelector.base_model: fit on the word's full data at the given state
count, catching any failure (the try/except returning None). -/
def baseModel {W M D : Type} [DecidableEq W] (S : WordData W M D) (n : Nat) : Option M :=
  S.o.fit n S.fullData

/-- SelectorConstant.select: one call to base_model at n_constant, returned
verbatim. -/
def selectorConstant {W M D : Type} [DecidableEq W] (S : WordData W M D) : Option M :=
  baseModel S S.nConstant

/-- The candidate state counts range(min_n_components, max_n_components + 1). -/
def candidates (minN maxN : Nat) : List Nat :=
  List.range' minN (maxN + 1 - minN)

/-- Strictly-less test on rationals (the float comparison score < best_score). -/
def qlt (x y : ℚ) : Bool := decide (x < y)

/-- Strictly-greater test on rationals (the float comparison score > best_score). -/
def qgt (x y : ℚ) : Bool := decide (y < x)

/-- The shared search loop of SelectorBIC, SelectorDIC and SelectorCV: walk
the candidate list in ascending order, evaluate each candidate (none when the
try block raised, some (score, model) otherwise), and keep the best
(score, n, model) triple seen so far, replacing only on strict improvement
b score best_score; the initial best (plus or minus infinity with no model)
is the none accumulator, which the first successful candidate always
replaces. -/
def searchBest {M : Type} (b : ℚ → ℚ → Bool) (e : Nat → Option (ℚ × M)) :
    List Nat → Option (ℚ × Nat × M) → Option (ℚ × Nat × M)
  | [], best => best
  | n :: ns, best =>
    match e n with
    | none => searchBest b e ns best
    | some sm =>
      match best with
      | none => searchBest b e ns (some (sm.1, n, sm.2))
      | some b0 =>
        if b sm.1 b0.1 then searchBest b e ns (some (sm.1, n, sm.2))
        else searchBest b e ns (some b0)

/-- One candidate evaluation of SelectorBIC.select: fit via base_model (a
failure, including the refit on the same full data, skips the candidate),
then p = n^2 + 2*n*n_features - 1 and
BIC = -2 * score + p * log(n_obs); a scoring failure skips the candidate. -/
def bicEval {W M D : Type} [DecidableEq W] (S : WordData W M D) (n : Nat) : Option (ℚ × M) :=
  match baseModel S n with
  | none => none
  | some m =>
    match S.o.score m S.fullData with
    | none => none
    | some l =>
      some (-2 * l + (((n : ℤ) ^ 2 + 2 * n * S.o.nFeatures m - 1 : ℤ) : ℚ) * S.o.log S.nObs, m)

/-- SelectorBIC.select: minimise BIC over the candidate range, first
encountered candidate winning ties; None when every candidate failed. -/
def bicSelect {W M D : Type} [DecidableEq W] (S : WordData W M D) : Option M :=
  match searchBest qlt (bicEval S) (candidates S.minN S.maxN) none with
  | none => none
  | some r => some r.2.2

/-- The inner loop of SelectorDIC.select over the words of hwords: skip the
selected word itself, score the fitted model on every other word's data and
accumulate (sum, count); the first scoring failure aborts the whole
accumulation (the exception propagates to the candidate's try). -/
def dicAnti {W M D : Type} [DecidableEq W] (score : M → D → Option ℚ) (m : M) (tw : W) :
    List (W × D) → Option (ℚ × Nat)
  | [] => some (0, 0)
  | (w, d) :: rest =>
    if w = tw then dicAnti score m tw rest
    else
      match score m d, dicAnti score m tw rest with
      | some l, some sc => some (l + sc.1, sc.2 + 1)
      | _, _ => none

/-- One candidate evaluation of SelectorDIC.select: fit via base_model, score
the word's own data (logL), accumulate the anti log-likelihoods, and return
logL - (1/count) * sum; a count of zero is the ZeroDivisionError of
1/float(count), which skips the candidate. -/
def dicEval {W M D : Type} [DecidableEq W] (S : WordData W M D) (n : Nat) : Option (ℚ × M) :=
  match baseModel S n with
  | none => none
  | some m =>
    match S.o.score m S.fullData with
    | none => none
    | some logL =>
      match dicAnti S.o.score m S.thisWord S.hwords with
      | none => none
      | some sc =>
        if sc.2 = 0 then none
        else some (logL - sc.1 / (sc.2 : ℚ), m)

/-- SelectorDIC.select: maximise DIC over the candidate range, first
encountered candidate winning ties; None when every candidate failed. -/
def dicSelect {W M D : Type} [DecidableEq W] (S : WordData W M D) : Option M :=
  match searchBest qgt (dicEval S) (candidates S.minN S.maxN) none with
  | none => none
  | some r => some r.2.2

/-- SelectorCV fold count k = min(3, len(self.sequences)). -/
def cvK {W M D : Type} [DecidableEq W] (S : WordData W M D) : Nat :=
  min 3 S.numSeqs

/-- The fold loop of SelectorCV.select: for each (train, test) index pair,
refit the model object on the combined training sequences and add the score
on the combined test sequences to the accumulator; any failure aborts the
candidate.  The model object after the loop is the one fitted on the last
fold. -/
def cvLoop {M D : Type} (o : Oracle M D) (combine : List Nat → D) (n : Nat) :
    List (List Nat × List Nat) → ℚ → M → Option (ℚ × M)
  | [], acc, m => some (acc, m)
  | f :: fs, acc, _ =>
    match o.fit n (combine f.1) with
    | none => none
    | some m1 =>
      match o.score m1 (combine f.2) with
      | none => none
      | some s => cvLoop o combine n fs (acc + s) m1

/-- One candidate evaluation of SelectorCV.select: fit via base_model (a
None model makes the first fold's refit raise, skipping the candidate;
KFold yields at least one split since it requires n_splits >= 2), obtain
the KFold splits (a KFold failure, e.g. n_splits <= 1, skips the
candidate), run the fold loop from accumulator 0, and divide by k. -/
def cvEval {W M D : Type} [DecidableEq W] (S : WordData W M D) (n : Nat) : Option (ℚ × M) :=
  match baseModel S n with
  | none => none
  | some m0 =>
    match S.kfold S.numSeqs (cvK S) with
    | none => none
    | some fs =>
      match cvLoop S.o S.combine n fs 0 m0 with
      | none => none
      | some tm => some (tm.1 / (cvK S : ℚ), tm.2)

/-- SelectorCV.select: maximise the average held-out score over the candidate
range (first encountered wins ties); when a best model exists, refit it on
the word's full data and return that refit model.  The final refit is the
one oracle call of the selectors made outside a try block, so a failure
there would escape as a raised exception, modelled by Except.error. -/
def cvSelect {W M D : Type} [DecidableEq W] (S : WordData W M D) : Except Unit (Option M) :=
  match searchBest qgt (cvEval S) (candidates S.minN S.maxN) none with
  | none => Except.ok none
  | some r =>
    match S.o.fit r.2.1 S.fullData with
    | some m => Except.ok (some m)
    | none => Except.error ()

/-- A stored recognizer score: the model's log-likelihood of the item, or
negative infinity (bot) when scoring raised (my_recognizer.py, the
try/except around models[candidate_word].score). -/
def scoreWord {M D : Type} (score : M → D → Option ℚ) (m : M) (x : D) : WithBot ℚ :=
  match score m x with
  | some q => (q : WithBot ℚ)
  | none => ⊥

/-- The inner loop of recognize over the models dictionary for one test
item: append (word, score) to the probability map in iteration order and
keep the best (score, guess) pair, replacing only on a strictly greater
score; the initial best is negative infinity with guess None. -/
def recognizeLoop {W M D : Type} (score : M → D → Option ℚ) (x : D) :
    List (W × M) → List (W × WithBot ℚ) → WithBot ℚ → Option W →
    List (W × WithBot ℚ) × Option W
  | [], probs, _, bg => (probs, bg)
  | (w, m) :: rest, probs, bs, bg =>
    let ll := scoreWord score m x
    if bs < ll then recognizeLoop score x rest (probs ++ [(w, ll)]) ll (some w)
    else recognizeLoop score x rest (probs ++ [(w, ll)]) bs bg

/-- The body of recognize for one test item. -/
def recognizeItem {W M D : Type} (score : M → D → Option ℚ)
    (models : List (W × M)) (x : D) :
    List (W × WithBot ℚ) × Option W :=
  recognizeLoop score x models [] ⊥ none

/-- recognize (my_recognizer.py): iterate over the test items in order,
collecting the per-item probability maps and best guesses into two lists. -/
def recognize {W M D : Type} (score : M → D → Option ℚ)
    (models : List (W × M)) :
    List D → List (List (W × WithBot ℚ)) × List (Option W)
  | [] => ([], [])
  | x :: rest =>
    ((recognizeItem score models x).1 :: (recognize score models rest).1,
     (recognizeItem score models x).2 :: (recognize score models rest).2)

/-- The maximum value of a score map (negative infinity for the empty map). -/
def mapMax {W : Type} (ps : List (W × WithBot ℚ)) : WithBot ℚ :=
  ps.foldr (fun p acc => max p.2 acc) ⊥

/-- The spec-side argmax over a score map: the first key attaining the
maximum value (section 4.6 of the spec: the key with the maximum value,
first encountered winning ties). -/
def argmaxKey {W : Type} [DecidableEq W] (ps : List (W × WithBot ℚ)) : Option W :=
  (ps.find? (fun p => p.2 == mapMax ps)).map Prod.fst

/-- Spec-side list of foreign-word log-likelihoods for SelectorDIC (one per
other category, in dictionary order), all of which must succeed. -/
def antiScores {W M D : Type} [DecidableEq W] (score : M → D → Option ℚ) (m : M) (tw : W) :
    List (W × D) → Option (List ℚ)
  | [] => some []
  | (w, d) :: rest =>
    if w = tw then antiScores score m tw rest
    else
      match score m d, antiScores score m tw rest with
      | some l, some ls => some (l :: ls)
      | _, _ => none

/-- Modelled from the claim (C5) rather than from the code: an
anti-likelihood accumulation that tolerates per-category scoring failures by
excluding just the failing foreign category from the average. -/
def dicAntiTol {W M D : Type} [DecidableEq W] (score : M → D → Option ℚ) (m : M) (tw : W) :
    List (W × D) → ℚ × Nat
  | [] => (0, 0)
  | (w, d) :: rest =>
    if w = tw then dicAntiTol score m tw rest
    else
      match score m d with
      | none => dicAntiTol score m tw rest
      | some l =>
        ((dicAntiTol score m tw rest).1 + l, (dicAntiTol score m tw rest).2 + 1)

/-- Modelled from the claim (C5): candidate evaluation for SelectorDIC under
the per-category tolerance policy the claim describes. -/
def dicEvalTol {W M D : Type} [DecidableEq W] (S : WordData W M D) (n : Nat) : Option (ℚ × M) :=
  match baseModel S n with
  | none => none
  | some m =>
    match S.o.score m S.fullData with
    | none => none
    | some logL =>
      match dicAntiTol S.o.score m S.thisWord S.hwords with
      | (s, c) =>
        if c = 0 then none
        else some (logL - s / (c : ℚ), m)

/-- Modelled from the claim (C5): SelectorDIC.select under the per-category
tolerance policy the claim describes. -/
def dicSelectTol {W M D : Type} [DecidableEq W] (S : WordData W M D) : Option M :=
  match searchBest qgt (dicEvalTol S) (candidates S.minN S.maxN) none with
  | none => none
  | some r => some r.2.2

/-- The held-out score of one SelectorCV fold: fit on the combined training
sequences, score on the combined test sequences. -/
def foldScore {M D : Type} (o : Oracle M D) (combine : List Nat → D) (n : Nat)
    (f : List Nat × List Nat) : Option ℚ :=
  match o.fit n (combine f.1) with
  | none => none
  | some m => o.score m (combine f.2)

/-- Spec-side list of held-out fold scores for SelectorCV (one per fold),
all of which must succeed. -/
def foldScores {M D : Type} (o : Oracle M D) (combine : List Nat → D) (n : Nat) :
    List (List Nat × List Nat) → Option (List ℚ)
  | [] => some []
  | f :: fs =>
    match foldScore o combine n f, foldScores o combine n fs with
    | some s, some ls => some (s :: ls)
    | _, _ => none

/-! ### Properties of the shared search loop -/

theorem searchBest_some_acc {M : Type} (b : ℚ → ℚ → Bool) (e : Nat → Option (ℚ × M)) :
    ∀ (ns : List Nat) (z : ℚ × Nat × M), searchBest b e ns (some z) ≠ none := by
  intro ns
  induction ns with
  | nil => intro z h; exact Option.noConfusion h
  | cons n ns ih =>
    intro z
    cases h : e n with
    | none => simpa [searchBest, h] using ih z
    | some sm =>
      by_cases hb : b sm.1 z.1
      · simpa [searchBest, h, hb] using ih (sm.1, n, sm.2)
      · simpa [searchBest, h, hb] using ih z

theorem searchBest_none_iff {M : Type} (b : ℚ → ℚ → Bool) (e : Nat → Option (ℚ × M)) :
    ∀ (ns : List Nat) (acc : Option (ℚ × Nat × M)),
      searchBest b e ns acc = none ↔ acc = none ∧ ∀ n ∈ ns, e n = none := by
  intro ns
  induction ns with
  | nil => intro acc; simp [searchBest]
  | cons n ns ih =>
    intro acc
    cases h : e n with
    | none =>
      simp only [searchBest, h]
      rw [ih]
      constructor
      · rintro ⟨h1, h2⟩
        refine ⟨h1, ?_⟩
        intro x hx
        rcases List.mem_cons.mp hx with hx | hx
        · exact hx ▸ h
        · exact h2 x hx
      · rintro ⟨h1, h2⟩
        exact ⟨h1, fun x hx => h2 x (List.mem_cons_of_mem n hx)⟩
    | some sm =>
      cases acc with
      | none =>
        simp only [searchBest, h]
        constructor
        · intro hc
          exact absurd hc (searchBest_some_acc b e ns (sm.1, n, sm.2))
        · rintro ⟨-, h2⟩
          exact absurd (h2 n (List.mem_cons_self n ns)) (by simp [h])
      | some z =>
        constructor
        · intro hc
          by_cases hb : b sm.1 z.1
          · simp only [searchBest, h, hb, if_true] at hc
            exact absurd hc (searchBest_some_acc b e ns (sm.1, n, sm.2))
          · simp only [searchBest, h, hb, if_false] at hc
            exact absurd hc (searchBest_some_acc b e ns z)
        · rintro ⟨hz, -⟩
          exact Option.noConfusion hz

theorem searchBest_mem {M : Type} (b : ℚ → ℚ → Bool) (e : Nat → Option (ℚ × M)) :
    ∀ (ns : List Nat) (acc : Option (ℚ × Nat × M)) (r : ℚ × Nat × M),
      searchBest b e ns acc = some r →
      acc = some r ∨ (r.2.1 ∈ ns ∧ e r.2.1 = some (r.1, r.2.2)) := by
  intro ns
  induction ns with
  | nil => intro acc r h; exact Or.inl (by simpa [searchBest] using h)
  | cons n ns ih =>
    intro acc r hr
    cases h : e n with
    | none =>
      simp only [searchBest, h] at hr
      rcases ih acc r hr with h1 | h1
      · exact Or.inl h1
      · exact Or.inr ⟨List.mem_cons_of_mem n h1.1, h1.2⟩
    | some sm =>
      cases acc with
      | none =>
        simp only [searchBest, h] at hr
        rcases ih _ r hr with h1 | h1
        · obtain rfl : (sm.1, n, sm.2) = r := Option.some.inj h1
          exact Or.inr ⟨List.mem_cons_self n ns, by simpa using h⟩
        · exact Or.inr ⟨List.mem_cons_of_mem n h1.1, h1.2⟩
      | some z =>
        by_cases hb : b sm.1 z.1
        · simp only [searchBest, h, hb, if_true] at hr
          rcases ih _ r hr with h1 | h1
          · obtain rfl : (sm.1, n, sm.2) = r := Option.some.inj h1
            exact Or.inr ⟨List.mem_cons_self n ns, by simpa using h⟩
          · exact Or.inr ⟨List.mem_cons_of_mem n h1.1, h1.2⟩
        · simp only [searchBest, h, hb, if_false] at hr
          rcases ih _ r hr with h1 | h1
          · exact Or.inl h1
          · exact Or.inr ⟨List.mem_cons_of_mem n h1.1, h1.2⟩

theorem searchBest_improve {M : Type} (b : ℚ → ℚ → Bool) (e : Nat → Option (ℚ × M))
    (htr : ∀ x y z, b x y = true → b y z = true → b x z = true) :
    ∀ (ns : List Nat) (z r : ℚ × Nat × M),
      searchBest b e ns (some z) = some r → r = z ∨ b r.1 z.1 = true := by
  intro ns
  induction ns with
  | nil =>
    intro z r h
    exact Or.inl (Option.some.inj (by simpa [searchBest] using h)).symm
  | cons n ns ih =>
    intro z r hr
    cases h : e n with
    | none =>
      simp only [searchBest, h] at hr
      exact ih z r hr
    | some sm =>
      by_cases hb : b sm.1 z.1
      · simp only [searchBest, h, hb, if_true] at hr
        rcases ih _ r hr with h1 | h1
        · subst h1; exact Or.inr hb
        · exact Or.inr (htr r.1 sm.1 z.1 h1 hb)
      · simp only [searchBest, h, hb, if_false] at hr
        exact ih z r hr

theorem searchBest_not_beaten {M : Type} (b : ℚ → ℚ → Bool) (e : Nat → Option (ℚ × M))
    (htr : ∀ x y z, b x y = true → b y z = true → b x z = true)
    (hirr : ∀ x, b x x = false) :
    ∀ (ns : List Nat) (acc : Option (ℚ × Nat × M)) (r : ℚ × Nat × M),
      searchBest b e ns acc = some r →
      ∀ n ∈ ns, ∀ s m, e n = some (s, m) → b s r.1 = false := by
  intro ns
  induction ns with
  | nil => intro acc r _ n hn; exact absurd hn (List.not_mem_nil n)
  | cons n0 ns ih =>
    intro acc r hr n hn s m hs
    have hasym : ∀ x y : ℚ, b x y = true → b y x = true → False := by
      intro x y h1 h2
      have := htr x y x h1 h2
      rw [hirr x] at this
      exact Bool.false_ne_true this
    rcases List.mem_cons.mp hn with rfl | hn2
    · -- the head element: its score cannot beat the final best
      cases h : e n with
      | none => rw [h] at hs; exact Option.noConfusion hs
      | some sm =>
        rw [h] at hs
        obtain rfl : sm = (s, m) := Option.some.inj hs
        -- in every branch the recursive accumulator has score s or better
        cases acc with
        | none =>
          simp only [searchBest, h] at hr
          rcases searchBest_improve b e htr ns _ r hr with h1 | h1
          · subst h1; exact hirr s
          · simp only at h1
            cases hx : b s r.1
            · rfl
            · exact (hasym r.1 s h1 hx).elim
        | some z =>
          by_cases hb : b s z.1
          · simp only [searchBest, h, hb, if_true] at hr
            rcases searchBest_improve b e htr ns _ r hr with h1 | h1
            · subst h1; exact hirr s
            · simp only at h1
              cases hx : b s r.1
              · rfl
              · exact (hasym r.1 s h1 hx).elim
          · simp only [searchBest, h, hb, if_false] at hr
            rcases searchBest_improve b e htr ns z r hr with h1 | h1
            · subst h1
              cases hx : b s r.1
              · rfl
              · rw [hx] at hb; exact absurd hb (by simp)
            · cases hx : b s r.1
              · rfl
              · have : b s z.1 = true := htr s r.1 z.1 hx h1
                rw [this] at hb; exact absurd hb (by simp)
    · -- a tail element: apply the induction hypothesis to the recursive call
      cases h : e n0 with
      | none =>
        simp only [searchBest, h] at hr
        exact ih acc r hr n hn2 s m hs
      | some sm =>
        cases acc with
        | none =>
          simp only [searchBest, h] at hr
          exact ih _ r hr n hn2 s m hs
        | some z =>
          by_cases hb : b sm.1 z.1
          · simp only [searchBest, h, hb, if_true] at hr
            exact ih _ r hr n hn2 s m hs
          · simp only [searchBest, h, hb, if_false] at hr
            exact ih _ r hr n hn2 s m hs

theorem searchBest_first {M : Type} (b : ℚ → ℚ → Bool) (e : Nat → Option (ℚ × M))
    (htr : ∀ x y z, b x y = true → b y z = true → b x z = true)
    (hcmp : ∀ x y z, b x y = true → b z y = false → b x z = true) :
    ∀ (ns : List Nat) (acc : Option (ℚ × Nat × M)) (r : ℚ × Nat × M),
      List.Pairwise (· < ·) ns →
      (∀ z, acc = some z → ∀ x ∈ ns, z.2.1 < x) →
      searchBest b e ns acc = some r →
      ∀ n ∈ ns, n < r.2.1 → ∀ s m, e n = some (s, m) → b r.1 s = true := by
  intro ns
  induction ns with
  | nil => intro acc r _ _ _ n hn; exact absurd hn (List.not_mem_nil n)
  | cons n0 ns ih =>
    intro acc r hp hacc hr n hn hlt s m hs
    have hp1 : ∀ x ∈ ns, n0 < x := (List.pairwise_cons.mp hp).1
    have hp2 : List.Pairwise (· < ·) ns := (List.pairwise_cons.mp hp).2
    rcases List.mem_cons.mp hn with rfl | hn2
    · -- head element, strictly before the winner
      cases acc with
      | none =>
        simp only [searchBest, hs] at hr
        rcases searchBest_improve b e htr ns _ r hr with h1 | h1
        · subst h1; exact absurd hlt (lt_irrefl n)
        · exact h1
      | some z =>
        by_cases hb : b s z.1
        · simp only [searchBest, hs, hb, if_true] at hr
          rcases searchBest_improve b e htr ns _ r hr with h1 | h1
          · subst h1; exact absurd hlt (lt_irrefl n)
          · exact h1
        · simp only [searchBest, hs, hb, if_false] at hr
          rcases searchBest_improve b e htr ns z r hr with h1 | h1
          · subst h1
            exact absurd hlt (not_lt_of_gt (hacc r rfl n (List.mem_cons_self n ns)))
          · exact hcmp r.1 z.1 s h1 (Bool.eq_false_iff.mpr hb)
    · -- tail element
      cases h : e n0 with
      | none =>
        simp only [searchBest, h] at hr
        refine ih acc r hp2 ?_ hr n hn2 hlt s m hs
        intro z hz x hx
        exact hacc z hz x (List.mem_cons_of_mem n0 hx)
      | some sm =>
        cases acc with
        | none =>
          simp only [searchBest, h] at hr
          refine ih _ r hp2 ?_ hr n hn2 hlt s m hs
          intro z hz x hx
          obtain rfl : (sm.1, n0, sm.2) = z := Option.some.inj hz
          exact hp1 x hx
        | some z =>
          by_cases hb : b sm.1 z.1
          · simp only [searchBest, h, hb, if_true] at hr
            refine ih _ r hp2 ?_ hr n hn2 hlt s m hs
            intro z1 hz1 x hx
            obtain rfl : (sm.1, n0, sm.2) = z1 := Option.some.inj hz1
            exact hp1 x hx
          · simp only [searchBest, h, hb, if_false] at hr
            refine ih _ r hp2 ?_ hr n hn2 hlt s m hs
            intro z1 hz1 x hx
            have hzz : z1 = z := (Option.some.inj hz1).symm
            subst hzz
            exact hacc z1 rfl x (List.mem_cons_of_mem n0 hx)

theorem qlt_iff (x y : ℚ) : qlt x y = true ↔ x < y := by simp [qlt]

theorem qlt_false_iff (x y : ℚ) : qlt x y = false ↔ y ≤ x := by simp [qlt]

theorem qgt_iff (x y : ℚ) : qgt x y = true ↔ y < x := by simp [qgt]

theorem qgt_false_iff (x y : ℚ) : qgt x y = false ↔ x ≤ y := by simp [qgt]

theorem qlt_trans : ∀ x y z : ℚ, qlt x y = true → qlt y z = true → qlt x z = true := by
  intro x y z h1 h2
  rw [qlt_iff] at *
  exact lt_trans h1 h2

theorem qlt_irrefl : ∀ x : ℚ, qlt x x = false := by
  intro x; simp [qlt]

theorem qlt_cmp : ∀ x y z : ℚ, qlt x y = true → qlt z y = false → qlt x z = true := by
  intro x y z h1 h2
  rw [qlt_iff] at *
  rw [qlt_false_iff] at h2
  exact lt_of_lt_of_le h1 h2

theorem qgt_trans : ∀ x y z : ℚ, qgt x y = true → qgt y z = true → qgt x z = true := by
  intro x y z h1 h2
  rw [qgt_iff] at *
  exact lt_trans h2 h1

theorem qgt_irrefl : ∀ x : ℚ, qgt x x = false := by
  intro x; simp [qgt]

theorem qgt_cmp : ∀ x y z : ℚ, qgt x y = true → qgt z y = false → qgt x z = true := by
  intro x y z h1 h2
  rw [qgt_iff] at *
  rw [qgt_false_iff] at h2
  exact lt_of_le_of_lt h2 h1

theorem candidates_pairwise (a c : Nat) : List.Pairwise (· < ·) (candidates a c) :=
  List.pairwise_lt_range' a (c + 1 - a)

theorem mem_candidates {a c n : Nat} : n ∈ candidates a c ↔ a ≤ n ∧ n ≤ c := by
  unfold candidates
  rw [List.mem_range'_1]
  omega

/-! ### Claim C1: SelectorBIC -/

/-- Statement of claim C1: when SelectorBIC.select returns a model, it is the
model of a successfully evaluated candidate whose BIC value is minimal among
all successfully evaluated candidates, and strictly below the BIC of every
earlier successful candidate (first encountered wins ties); the result is
None exactly when no candidate evaluates successfully; and the BIC value of
a candidate that fits and scores is -2 * logL + p * log(N) with
p = n^2 + 2*n*d - 1 (d the feature dimension reported by the model) and N
the total number of observation frames. -/
def BicClaim {W M D : Type} [DecidableEq W] (S : WordData W M D) : Prop :=
  (∀ m, bicSelect S = some m →
    ∃ n s, n ∈ candidates S.minN S.maxN ∧ bicEval S n = some (s, m) ∧
      (∀ n1 s1 m1, n1 ∈ candidates S.minN S.maxN → bicEval S n1 = some (s1, m1) → s ≤ s1) ∧
      (∀ n1 s1 m1, n1 ∈ candidates S.minN S.maxN → n1 < n →
        bicEval S n1 = some (s1, m1) → s < s1)) ∧
  (bicSelect S = none ↔ ∀ n ∈ candidates S.minN S.maxN, bicEval S n = none) ∧
  (∀ n m l, baseModel S n = some m → S.o.score m S.fullData = some l →
    bicEval S n =
      some (-2 * l + (((n : ℤ) ^ 2 + 2 * n * S.o.nFeatures m - 1 : ℤ) : ℚ) * S.o.log S.nObs, m))

/-- Claim C1: SelectorBIC.select returns the first candidate minimising the
BIC score, or None when every candidate fails. -/
theorem bic_select_minimizes {W M D : Type} [DecidableEq W] (S : WordData W M D) :
    BicClaim S := by
  refine ⟨?_, ?_, ?_⟩
  · intro m hm
    unfold bicSelect at hm
    cases hsr : searchBest qlt (bicEval S) (candidates S.minN S.maxN) none with
    | none => rw [hsr] at hm; exact Option.noConfusion hm
    | some r =>
      rw [hsr] at hm
      obtain rfl : r.2.2 = m := Option.some.inj hm
      rcases searchBest_mem qlt (bicEval S) _ none r hsr with h1 | h1
      · exact Option.noConfusion h1
      · refine ⟨r.2.1, r.1, h1.1, h1.2, ?_, ?_⟩
        · intro n1 s1 m1 hn1 he1
          have := searchBest_not_beaten qlt (bicEval S) qlt_trans qlt_irrefl _ none r hsr
            n1 hn1 s1 m1 he1
          exact (qlt_false_iff s1 r.1).mp this
        · intro n1 s1 m1 hn1 hlt he1
          have := searchBest_first qlt (bicEval S) qlt_trans qlt_cmp _ none r
            (candidates_pairwise S.minN S.maxN) (by intro z hz; exact Option.noConfusion hz)
            hsr n1 hn1 hlt s1 m1 he1
          exact (qlt_iff r.1 s1).mp this
  · unfold bicSelect
    cases hsr : searchBest qlt (bicEval S) (candidates S.minN S.maxN) none with
    | none =>
      simp only [true_iff]
      have := (searchBest_none_iff qlt (bicEval S) _ none).mp hsr
      exact this.2
    | some r =>
      simp only [iff_false, false_iff]
      constructor
      · intro h; exact Option.noConfusion h
      · intro hall
        have : searchBest qlt (bicEval S) (candidates S.minN S.maxN) none = none :=
          (searchBest_none_iff qlt (bicEval S) _ none).mpr ⟨rfl, hall⟩
        rw [this] at hsr
        exact Option.noConfusion hsr
  · intro n m l hfit hsc
    simp [bicEval, hfit, hsc]

/-! ### Claim C3: SelectorDIC -/

theorem dicAnti_eq_antiScores {W M D : Type} [DecidableEq W]
    (score : M → D → Option ℚ) (m : M) (tw : W) :
    ∀ ws : List (W × D),
      dicAnti score m tw ws =
        (antiScores score m tw ws).map (fun ls => (ls.sum, ls.length)) := by
  intro ws
  induction ws with
  | nil => simp [dicAnti, antiScores]
  | cons p rest ih =>
    obtain ⟨w, d⟩ := p
    by_cases hw : w = tw
    · simp [dicAnti, antiScores, hw, ih]
    · cases hsc : score m d with
      | none => simp [dicAnti, antiScores, hw, hsc]
      | some l =>
        cases har : antiScores score m tw rest with
        | none => simp [dicAnti, antiScores, hw, hsc, ih, har]
        | some ls =>
          simp [dicAnti, antiScores, hw, hsc, ih, har, add_comm]

theorem antiScores_none_of_fail {W M D : Type} [DecidableEq W]
    (score : M → D → Option ℚ) (m : M) (tw : W) :
    ∀ (ws : List (W × D)) (w : W) (d : D),
      (w, d) ∈ ws → w ≠ tw → score m d = none →
      antiScores score m tw ws = none := by
  intro ws
  induction ws with
  | nil => intro w d hm; exact absurd hm (List.not_mem_nil (w, d))
  | cons p rest ih =>
    intro w d hm hw hsc
    rcases List.mem_cons.mp hm with h1 | h1
    · obtain rfl : p = (w, d) := h1.symm
      simp [antiScores, hw, hsc]
    · obtain ⟨w0, d0⟩ := p
      by_cases hw0 : w0 = tw
      · simp [antiScores, hw0]
        exact ih w d h1 hw hsc
      · cases hsc0 : score m d0 with
        | none => simp [antiScores, hw0, hsc0]
        | some l0 => simp [antiScores, hw0, hsc0, ih w d h1 hw hsc]

/-- Statement of claim C3: when SelectorDIC.select returns a model, it is the
model of a successfully evaluated candidate whose DIC value is maximal among
all successfully evaluated candidates and strictly above every earlier
successful candidate (first encountered wins ties); if every candidate fails
to fit the result is None; and the DIC value of a fully successful candidate
is logL on the own word minus the mean of the log-likelihoods on every other
word of the dictionary. -/
def DicClaim {W M D : Type} [DecidableEq W] (S : WordData W M D) : Prop :=
  (∀ m, dicSelect S = some m →
    ∃ n s, n ∈ candidates S.minN S.maxN ∧ dicEval S n = some (s, m) ∧
      (∀ n1 s1 m1, n1 ∈ candidates S.minN S.maxN → dicEval S n1 = some (s1, m1) → s1 ≤ s) ∧
      (∀ n1 s1 m1, n1 ∈ candidates S.minN S.maxN → n1 < n →
        dicEval S n1 = some (s1, m1) → s1 < s)) ∧
  ((∀ n ∈ candidates S.minN S.maxN, baseModel S n = none) → dicSelect S = none) ∧
  (∀ n m logL ls, baseModel S n = some m → S.o.score m S.fullData = some logL →
    antiScores S.o.score m S.thisWord S.hwords = some ls → ls ≠ [] →
    dicEval S n = some (logL - ls.sum / (ls.length : ℚ), m))

/-- Claim C3: SelectorDIC.select returns the first candidate maximising the
DIC score logL_self minus the mean anti log-likelihood, or None when every
candidate fails to fit. -/
theorem dic_select_maximizes {W M D : Type} [DecidableEq W] (S : WordData W M D) :
    DicClaim S := by
  refine ⟨?_, ?_, ?_⟩
  · intro m hm
    unfold dicSelect at hm
    cases hsr : searchBest qgt (dicEval S) (candidates S.minN S.maxN) none with
    | none => rw [hsr] at hm; exact Option.noConfusion hm
    | some r =>
      rw [hsr] at hm
      obtain rfl : r.2.2 = m := Option.some.inj hm
      rcases searchBest_mem qgt (dicEval S) _ none r hsr with h1 | h1
      · exact Option.noConfusion h1
      · refine ⟨r.2.1, r.1, h1.1, h1.2, ?_, ?_⟩
        · intro n1 s1 m1 hn1 he1
          have := searchBest_not_beaten qgt (dicEval S) qgt_trans qgt_irrefl _ none r hsr
            n1 hn1 s1 m1 he1
          exact (qgt_false_iff s1 r.1).mp this
        · intro n1 s1 m1 hn1 hlt he1
          have := searchBest_first qgt (dicEval S) qgt_trans qgt_cmp _ none r
            (candidates_pairwise S.minN S.maxN) (by intro z hz; exact Option.noConfusion hz)
            hsr n1 hn1 hlt s1 m1 he1
          exact (qgt_iff r.1 s1).mp this
  · intro hall
    unfold dicSelect
    have : searchBest qgt (dicEval S) (candidates S.minN S.maxN) none = none := by
      refine (searchBest_none_iff qgt (dicEval S) _ none).mpr ⟨rfl, ?_⟩
      intro n hn
      simp [dicEval, hall n hn]
    rw [this]
  · intro n m logL ls hfit hsc har hne
    have hanti : dicAnti S.o.score m S.thisWord S.hwords = some (ls.sum, ls.length) := by
      rw [dicAnti_eq_antiScores, har]
      rfl
    have hlen : ls.length ≠ 0 := by
      intro h0
      exact hne (List.eq_nil_of_length_eq_zero h0)
    simp [dicEval, hfit, hsc, hanti, hlen]

/-! ### Claim C5: DIC error handling (corrected) -/

/-- Amended claim C5: in SelectorDIC.select a scoring failure against any
single foreign word makes the whole candidate evaluation fail (the exception
aborts the try block of the candidate), exactly like a fitting failure; the
failing foreign word is not excluded individually. -/
theorem dic_foreign_failure_skips_candidate {W M D : Type} [DecidableEq W]
    (S : WordData W M D) (n : Nat) (m : M) (w : W) (d : D)
    (hfit : baseModel S n = some m) (hmem : (w, d) ∈ S.hwords)
    (hne : w ≠ S.thisWord) (hsc : S.o.score m d = none) :
    dicEval S n = none := by
  have har : antiScores S.o.score m S.thisWord S.hwords = none :=
    antiScores_none_of_fail S.o.score m S.thisWord S.hwords w d hmem hne hsc
  have hanti : dicAnti S.o.score m S.thisWord S.hwords = none := by
    rw [dicAnti_eq_antiScores, har]
    rfl
  cases hself : S.o.score m S.fullData with
  | none => simp [dicEval, hfit, hself]
  | some logL => simp [dicEval, hfit, hself, hanti]

/-- A concrete word dataset for SelectorDIC: the candidate n = 2 fits and
scores its own word, scoring word 1 raises, scoring word 2 succeeds. -/
def oracleDic : Oracle Nat Nat where
  fit := fun n _ => some n
  score := fun m d => if d = 1 then none else some (-(m : ℚ) - d)
  nFeatures := fun _ => 2
  log := fun _ => 1

/-- The WordData instance built on oracleDic (word keys and data are
numbers; the selected word is 0 with data 0). -/
def wordDic : WordData Nat Nat Nat where
  o := oracleDic
  hwords := [(0, 0), (1, 1), (2, 2)]
  thisWord := 0
  fullData := 0
  nObs := 10
  numSeqs := 4
  nConstant := 3
  minN := 2
  maxN := 2
  kfold := fun _ _ => none
  combine := fun _ => 0

/-- Counterexample to claim C5 as stated: on wordDic the only candidate
n = 2 fits and scores its own word, and only the single foreign word 1 fails
to score; the claimed per-word tolerance (dicSelectTol) would keep the
candidate and return its model, but SelectorDIC.select skips the whole
candidate and returns None. -/
theorem dic_foreign_tolerance_counterexample :
    dicSelect wordDic = none ∧ dicSelectTol wordDic = some 2 ∧
    baseModel wordDic 2 = some 2 ∧ wordDic.o.score 2 wordDic.fullData = some (-2) := by
  refine ⟨?_, ?_, rfl, ?_⟩
  · norm_num [dicSelect, searchBest, candidates, dicEval, dicAnti, baseModel, wordDic, oracleDic]
  · norm_num [dicSelectTol, searchBest, candidates, dicEvalTol, dicAntiTol, baseModel, qgt,
      wordDic, oracleDic]
  · norm_num [wordDic, oracleDic]

/-- Witness for the amended claim C5 at the concrete instance wordDic. -/
theorem dic_foreign_failure_skips_candidate_witness :
    baseModel wordDic 2 = some 2 ∧ (1, 1) ∈ wordDic.hwords ∧
    (1 : Nat) ≠ wordDic.thisWord ∧ wordDic.o.score 2 1 = none ∧
    dicEval wordDic 2 = none :=
  ⟨rfl, by simp [wordDic], by decide, rfl,
    dic_foreign_failure_skips_candidate wordDic 2 2 1 1 rfl (by simp [wordDic]) (by decide) rfl⟩

/-! ### SelectorCV lemmas -/

theorem cvLoop_none_iff {M D : Type} (o : Oracle M D) (combine : List Nat → D) (n : Nat) :
    ∀ (fs : List (List Nat × List Nat)) (acc : ℚ) (m0 : M),
      cvLoop o combine n fs acc m0 = none ↔ foldScores o combine n fs = none := by
  intro fs
  induction fs with
  | nil => intro acc m0; simp [cvLoop, foldScores]
  | cons f fs ih =>
    intro acc m0
    cases hf : o.fit n (combine f.1) with
    | none => simp [cvLoop, foldScores, foldScore, hf]
    | some m1 =>
      cases hs : o.score m1 (combine f.2) with
      | none => simp [cvLoop, foldScores, foldScore, hf, hs]
      | some s =>
        simp only [cvLoop, foldScores, foldScore, hf, hs]
        rw [ih]
        cases foldScores o combine n fs <;> simp

theorem cvLoop_some {M D : Type} (o : Oracle M D) (combine : List Nat → D) (n : Nat) :
    ∀ (fs : List (List Nat × List Nat)) (acc : ℚ) (m0 : M) (t : ℚ) (mm : M),
      cvLoop o combine n fs acc m0 = some (t, mm) →
      ∃ ls, foldScores o combine n fs = some ls ∧ t = acc + ls.sum := by
  intro fs
  induction fs with
  | nil =>
    intro acc m0 t mm h
    simp only [cvLoop] at h
    obtain ⟨h1, -⟩ := Prod.mk.injEq .. ▸ Option.some.inj h
    exact ⟨[], rfl, by simp [← h1]⟩
  | cons f fs ih =>
    intro acc m0 t mm h
    cases hf : o.fit n (combine f.1) with
    | none => rw [cvLoop, hf] at h; exact Option.noConfusion h
    | some m1 =>
      cases hs : o.score m1 (combine f.2) with
      | none =>
        rw [cvLoop, hf] at h
        simp only [hs] at h
        exact Option.noConfusion h
      | some s =>
        rw [cvLoop, hf] at h
        simp only [hs] at h
        obtain ⟨ls, hls, ht⟩ := ih (acc + s) m1 t mm h
        refine ⟨s :: ls, ?_, ?_⟩
        · simp [foldScores, foldScore, hf, hs, hls]
        · rw [ht, List.sum_cons]
          ring

theorem foldScores_length {M D : Type} (o : Oracle M D) (combine : List Nat → D) (n : Nat) :
    ∀ (fs : List (List Nat × List Nat)) (ls : List ℚ),
      foldScores o combine n fs = some ls → ls.length = fs.length := by
  intro fs
  induction fs with
  | nil =>
    intro ls h
    obtain rfl : [] = ls := Option.some.inj h
    rfl
  | cons f fs ih =>
    intro ls h
    cases hf : foldScore o combine n f with
    | none => rw [foldScores, hf] at h; exact Option.noConfusion h
    | some s =>
      cases hrest : foldScores o combine n fs with
      | none =>
        rw [foldScores, hf, hrest] at h
        exact Option.noConfusion h
      | some ls1 =>
        rw [foldScores, hf, hrest] at h
        obtain rfl : s :: ls1 = ls := Option.some.inj h
        simp [ih ls1 hrest]

theorem foldScores_none_of_mem {M D : Type} (o : Oracle M D) (combine : List Nat → D) (n : Nat) :
    ∀ (fs : List (List Nat × List Nat)) (f : List Nat × List Nat),
      f ∈ fs → foldScore o combine n f = none → foldScores o combine n fs = none := by
  intro fs
  induction fs with
  | nil => intro f hm; exact absurd hm (List.not_mem_nil f)
  | cons f0 fs ih =>
    intro f hm hf
    rcases List.mem_cons.mp hm with rfl | hm2
    · simp [foldScores, hf]
    · rw [foldScores, ih f hm2 hf]
      cases foldScore o combine n f0 <;> rfl

/-- Characterisation of a successful SelectorCV.select: the returned model is
the fit of the winning candidate on the word's full data, and the winning
candidate's average held-out score is maximal among all successful
candidates, strictly above every earlier successful one. -/
theorem cvSelect_winner {W M D : Type} [DecidableEq W] (S : WordData W M D) (m : M)
    (h : cvSelect S = Except.ok (some m)) :
    ∃ n s m1, n ∈ candidates S.minN S.maxN ∧ cvEval S n = some (s, m1) ∧
      S.o.fit n S.fullData = some m ∧
      (∀ n1 s1 m2, n1 ∈ candidates S.minN S.maxN → cvEval S n1 = some (s1, m2) → s1 ≤ s) ∧
      (∀ n1 s1 m2, n1 ∈ candidates S.minN S.maxN → n1 < n →
        cvEval S n1 = some (s1, m2) → s1 < s) := by
  unfold cvSelect at h
  cases hsr : searchBest qgt (cvEval S) (candidates S.minN S.maxN) none with
  | none =>
    rw [hsr] at h
    exact absurd (Except.ok.inj h) (by intro hc; exact Option.noConfusion hc)
  | some r =>
    rw [hsr] at h
    dsimp only at h
    cases hfit : S.o.fit r.2.1 S.fullData with
    | none =>
      rw [hfit] at h
      exact Except.noConfusion h
    | some mf =>
      rw [hfit] at h
      obtain rfl : mf = m := Option.some.inj (Except.ok.inj h)
      rcases searchBest_mem qgt (cvEval S) _ none r hsr with h1 | h1
      · exact Option.noConfusion h1
      · refine ⟨r.2.1, r.1, r.2.2, h1.1, h1.2, hfit, ?_, ?_⟩
        · intro n1 s1 m2 hn1 he1
          have := searchBest_not_beaten qgt (cvEval S) qgt_trans qgt_irrefl _ none r hsr
            n1 hn1 s1 m2 he1
          exact (qgt_false_iff s1 r.1).mp this
        · intro n1 s1 m2 hn1 hlt he1
          have := searchBest_first qgt (cvEval S) qgt_trans qgt_cmp _ none r
            (candidates_pairwise S.minN S.maxN) (by intro z hz; exact Option.noConfusion hz)
            hsr n1 hn1 hlt s1 m2 he1
          exact (qgt_iff r.1 s1).mp this

/-- SelectorCV.select never reaches the unprotected final refit with a
candidate whose full-data fit failed: whenever a winner exists, its
base_model fit on the full data already succeeded inside the search, and the
final refit is the same deterministic oracle call, so select never raises. -/
theorem cvSelect_never_error {W M D : Type} [DecidableEq W] (S : WordData W M D) :
    ∃ ro, cvSelect S = Except.ok ro := by
  unfold cvSelect
  cases hsr : searchBest qgt (cvEval S) (candidates S.minN S.maxN) none with
  | none => exact ⟨none, rfl⟩
  | some r =>
    rcases searchBest_mem qgt (cvEval S) _ none r hsr with h1 | h1
    · exact Option.noConfusion h1
    · cases hfit : S.o.fit r.2.1 S.fullData with
      | none =>
        have he := h1.2
        rw [cvEval] at he
        rw [show baseModel S r.2.1 = none from hfit] at he
        exact Option.noConfusion he
      | some mf =>
        refine ⟨some mf, ?_⟩
        dsimp only
        rw [hfit]

/-! ### Claims C4, C6, C7, C9: SelectorCV and the no-raise policy -/

/-- Statement of claim C4, relative to the fold list fs produced by the
partitioner: the fold count is min(3, number of sequences); a successful
candidate's CV score is the arithmetic mean of exactly k held-out
log-likelihoods, one per fold; a candidate with any failing fold is excluded
entirely; and a returned model belongs to the first candidate with the
highest average. -/
def CvClaim {W M D : Type} [DecidableEq W] (S : WordData W M D)
    (fs : List (List Nat × List Nat)) : Prop :=
  cvK S = min 3 S.numSeqs ∧
  (∀ n q m, cvEval S n = some (q, m) →
    ∃ ls, foldScores S.o S.combine n fs = some ls ∧ ls.length = cvK S ∧
      q = ls.sum / (cvK S : ℚ)) ∧
  (∀ n f, f ∈ fs → foldScore S.o S.combine n f = none → cvEval S n = none) ∧
  (∀ m, cvSelect S = Except.ok (some m) →
    ∃ n s m1, n ∈ candidates S.minN S.maxN ∧ cvEval S n = some (s, m1) ∧
      (∀ n1 s1 m2, n1 ∈ candidates S.minN S.maxN → cvEval S n1 = some (s1, m2) → s1 ≤ s) ∧
      (∀ n1 s1 m2, n1 ∈ candidates S.minN S.maxN → n1 < n →
        cvEval S n1 = some (s1, m2) → s1 < s))

/-- Claim C4: SelectorCV fold handling and winner selection. -/
theorem cv_select_spec {W M D : Type} [DecidableEq W] (S : WordData W M D)
    (fs : List (List Nat × List Nat))
    (hfs : S.kfold S.numSeqs (cvK S) = some fs) (hlen : fs.length = cvK S) :
    CvClaim S fs := by
  refine ⟨rfl, ?_, ?_, ?_⟩
  · intro n q m h
    unfold cvEval at h
    cases hfit : baseModel S n with
    | none => rw [hfit] at h; exact Option.noConfusion h
    | some m0 =>
      rw [hfit] at h
      dsimp only at h
      rw [hfs] at h
      dsimp only at h
      cases hloop : cvLoop S.o S.combine n fs 0 m0 with
      | none => rw [hloop] at h; exact Option.noConfusion h
      | some tm =>
        rw [hloop] at h
        obtain ⟨ht, -⟩ := Prod.mk.injEq .. ▸ Option.some.inj h
        obtain ⟨ls, hls, hsum⟩ := cvLoop_some S.o S.combine n fs 0 m0 tm.1 tm.2
          (by rw [hloop])
        refine ⟨ls, hls, ?_, ?_⟩
        · rw [foldScores_length S.o S.combine n fs ls hls, hlen]
        · rw [← ht, hsum, zero_add]
  · intro n f hm hf
    have hnone : foldScores S.o S.combine n fs = none :=
      foldScores_none_of_mem S.o S.combine n fs f hm hf
    unfold cvEval
    cases hfit : baseModel S n with
    | none => rfl
    | some m0 =>
      dsimp only
      rw [hfs]
      dsimp only
      rw [(cvLoop_none_iff S.o S.combine n fs 0 m0).mpr hnone]
  · intro m h
    obtain ⟨n, s, m1, hn, he, -, hmax, hfirst⟩ := cvSelect_winner S m h
    exact ⟨n, s, m1, hn, he, hmax, hfirst⟩

/-- Statement of claim C7: a successful SelectorCV.select returns the model
refit at the winning state count on the word's entire dataset (fullData),
not any fold-trained model. -/
def CvRefitClaim {W M D : Type} [DecidableEq W] (S : WordData W M D) : Prop :=
  ∀ m, cvSelect S = Except.ok (some m) →
    ∃ n s m1, n ∈ candidates S.minN S.maxN ∧ cvEval S n = some (s, m1) ∧
      S.o.fit n S.fullData = some m ∧
      (∀ n1 s1 m2, n1 ∈ candidates S.minN S.maxN → cvEval S n1 = some (s1, m2) → s1 ≤ s) ∧
      (∀ n1 s1 m2, n1 ∈ candidates S.minN S.maxN → n1 < n →
        cvEval S n1 = some (s1, m2) → s1 < s)

/-- Claim C7: the model SelectorCV.select returns is the fresh fit of the
winning state count on the entire category dataset. -/
theorem cv_returns_full_data_refit {W M D : Type} [DecidableEq W] (S : WordData W M D) :
    CvRefitClaim S :=
  fun m h => cvSelect_winner S m h

/-- Statement of claim C6: no selector raises: SelectorCV.select always
returns an Except.ok result (the unprotected final refit cannot fail because
the winner's full-data fit already succeeded), and exhaustion is reported as
the explicit None result by every strategy. -/
def NoRaiseClaim {W M D : Type} [DecidableEq W] (S : WordData W M D) : Prop :=
  (∃ ro, cvSelect S = Except.ok ro) ∧
  ((∀ n ∈ candidates S.minN S.maxN, bicEval S n = none) → bicSelect S = none) ∧
  ((∀ n ∈ candidates S.minN S.maxN, dicEval S n = none) → dicSelect S = none) ∧
  ((∀ n ∈ candidates S.minN S.maxN, cvEval S n = none) → cvSelect S = Except.ok none) ∧
  selectorConstant S = baseModel S S.nConstant

/-- Claim C6: select never raises outward and exhaustion yields None. -/
theorem select_never_raises {W M D : Type} [DecidableEq W] (S : WordData W M D) :
    NoRaiseClaim S := by
  refine ⟨cvSelect_never_error S, ?_, ?_, ?_, rfl⟩
  · intro hall
    unfold bicSelect
    rw [(searchBest_none_iff qlt (bicEval S) _ none).mpr ⟨rfl, hall⟩]
  · intro hall
    unfold dicSelect
    rw [(searchBest_none_iff qgt (dicEval S) _ none).mpr ⟨rfl, hall⟩]
  · intro hall
    unfold cvSelect
    rw [(searchBest_none_iff qgt (cvEval S) _ none).mpr ⟨rfl, hall⟩]

/-- Claim C9: a word with a single sequence gives fold count
k = min(3, 1) = 1, on which the KFold constructor raises inside every
candidate's try block, so every candidate is skipped and SelectorCV.select
returns the explicit None result without raising. -/
theorem cv_single_sequence_safe {W M D : Type} [DecidableEq W] (S : WordData W M D)
    (h1 : S.numSeqs = 1) (h2 : S.kfold 1 1 = none) :
    cvSelect S = Except.ok none := by
  have hev : ∀ n, cvEval S n = none := by
    intro n
    cases hfit : baseModel S n with
    | none => simp [cvEval, hfit]
    | some m0 =>
      have hk : cvK S = 1 := by simp [cvK, h1]
      simp [cvEval, hfit, h1, hk, h2]
  unfold cvSelect
  rw [(searchBest_none_iff qgt (cvEval S) _ none).mpr ⟨rfl, fun n _ => hev n⟩]

/-! ### Concrete instances for witnesses -/

/-- A concrete oracle for witnesses: every fit succeeds and returns the state
count as the model, every score succeeds. -/
def oracleDemo : Oracle Nat Nat where
  fit := fun n _ => some n
  score := fun m d => some (-(m : ℚ) - d)
  nFeatures := fun _ => 2
  log := fun _ => 1

/-- A concrete fold partitioner for witnesses: KFold succeeds exactly when
2 <= k <= number of sequences, yielding k (train, test) index pairs. -/
def demoKfold (ns k : Nat) : Option (List (List Nat × List Nat)) :=
  if 2 ≤ k ∧ k ≤ ns then some ((List.range k).map (fun i => ([i], [i + 1]))) else none

/-- A three-word dataset over oracleDemo used for the BIC and DIC witnesses. -/
def wordDemo : WordData Nat Nat Nat where
  o := oracleDemo
  hwords := [(0, 0), (1, 1), (2, 2)]
  thisWord := 0
  fullData := 0
  nObs := 10
  numSeqs := 4
  nConstant := 3
  minN := 2
  maxN := 3
  kfold := demoKfold
  combine := fun ix => ix.sum

/-- A concrete oracle for the SelectorCV witnesses: the fitted model records
both the state count and the data it was fitted on, so the full-data refit is
distinguishable from every fold-trained model. -/
def oracleCv : Oracle Nat Nat where
  fit := fun n d => some (n + 10 * d)
  score := fun m d => some (-(m : ℚ) - d)
  nFeatures := fun _ => 2
  log := fun _ => 1

/-- A word dataset with four sequences over oracleCv for the SelectorCV
witnesses; combining index lists yields nonzero data, distinct from the full
data 0. -/
def wordCv : WordData Nat Nat Nat where
  o := oracleCv
  hwords := [(0, 0)]
  thisWord := 0
  fullData := 0
  nObs := 5
  numSeqs := 4
  nConstant := 3
  minN := 2
  maxN := 3
  kfold := demoKfold
  combine := fun ix => ix.sum + 1

/-- The wordCv dataset restricted to a single sequence (claim C9). -/
def wordCv1 : WordData Nat Nat Nat where
  o := oracleCv
  hwords := [(0, 0)]
  thisWord := 0
  fullData := 0
  nObs := 5
  numSeqs := 1
  nConstant := 3
  minN := 2
  maxN := 3
  kfold := demoKfold
  combine := fun ix => ix.sum + 1

/-- Witness for claim C1 at the concrete instance wordDemo. -/
theorem bic_select_minimizes_witness :
    bicSelect wordDemo = some 2 ∧ BicClaim wordDemo :=
  ⟨by norm_num [bicSelect, searchBest, candidates, bicEval, baseModel, qlt, wordDemo, oracleDemo],
   bic_select_minimizes wordDemo⟩

/-- Witness for claim C3 at the concrete instance wordDemo; the two
candidates have equal DIC values, so the first encountered (n = 2) wins. -/
theorem dic_select_maximizes_witness :
    dicSelect wordDemo = some 2 ∧ DicClaim wordDemo :=
  ⟨by norm_num [dicSelect, searchBest, candidates, dicEval, dicAnti, baseModel, qgt,
      wordDemo, oracleDemo],
   dic_select_maximizes wordDemo⟩

/-- Witness for claim C4 at the concrete instance wordCv. -/
theorem cv_select_spec_witness :
    wordCv.kfold wordCv.numSeqs (cvK wordCv) = some [([0], [1]), ([1], [2]), ([2], [3])] ∧
    ([([0], [1]), ([1], [2]), ([2], [3])] : List (List Nat × List Nat)).length = cvK wordCv ∧
    CvClaim wordCv [([0], [1]), ([1], [2]), ([2], [3])] :=
  ⟨by decide, by decide,
   cv_select_spec wordCv [([0], [1]), ([1], [2]), ([2], [3])] (by decide) (by decide)⟩

/-- Witness for claim C6 at the concrete instance wordCv. -/
theorem select_never_raises_witness : NoRaiseClaim wordCv :=
  select_never_raises wordCv

/-- Witness for claim C7 at the concrete instance wordCv: the returned model
2 is the full-data fit at the winning n = 2, distinct from the fold models. -/
theorem cv_returns_full_data_refit_witness :
    cvSelect wordCv = Except.ok (some 2) ∧ CvRefitClaim wordCv :=
  ⟨by norm_num [cvSelect, searchBest, candidates, cvEval, cvLoop, cvK, baseModel, qgt,
      wordCv, oracleCv, demoKfold, List.range],
   cv_returns_full_data_refit wordCv⟩

/-- Witness for claim C9 at the concrete instance wordCv1. -/
theorem cv_single_sequence_safe_witness :
    wordCv1.numSeqs = 1 ∧ wordCv1.kfold 1 1 = none ∧ cvSelect wordCv1 = Except.ok none :=
  ⟨rfl, by decide, cv_single_sequence_safe wordCv1 rfl (by decide)⟩

/-! ### Recognizer lemmas -/

theorem mapMax_cons {W : Type} (q : W × WithBot ℚ) (l : List (W × WithBot ℚ)) :
    mapMax (q :: l) = max q.2 (mapMax l) := rfl

theorem mapMax_append_single {W : Type} (l : List (W × WithBot ℚ)) (p : W × WithBot ℚ) :
    mapMax (l ++ [p]) = max (mapMax l) p.2 := by
  induction l with
  | nil =>
    show max p.2 ⊥ = max ⊥ p.2
    exact max_comm p.2 ⊥
  | cons q l ih =>
    rw [List.cons_append, mapMax_cons, ih, mapMax_cons, max_assoc]

theorem le_mapMax_of_mem {W : Type} :
    ∀ (l : List (W × WithBot ℚ)) (p : W × WithBot ℚ), p ∈ l → p.2 ≤ mapMax l := by
  intro l
  induction l with
  | nil => intro p hp; exact absurd hp (List.not_mem_nil p)
  | cons q l ih =>
    intro p hp
    rcases List.mem_cons.mp hp with rfl | hp2
    · exact le_max_left p.2 (mapMax l)
    · exact le_trans (ih p hp2) (le_max_right q.2 (mapMax l))

theorem mapMax_eq_bot_iff {W : Type} :
    ∀ l : List (W × WithBot ℚ), mapMax l = ⊥ ↔ ∀ p ∈ l, p.2 = ⊥ := by
  intro l
  induction l with
  | nil => simp [mapMax]
  | cons q l ih =>
    rw [mapMax_cons, max_eq_bot, ih]
    simp [List.forall_mem_cons]

/-- The invariant of the recognizer's inner loop: the accumulated best score
is the maximum of the accumulated score map, the best guess is None exactly
when that maximum is negative infinity, and otherwise the best guess is the
first key of the map attaining the maximum.  The final probability map is
the accumulator followed by the scores of the remaining models in order. -/
theorem recognizeLoop_spec {W M D : Type} [DecidableEq W]
    (score : M → D → Option ℚ) (x : D) :
    ∀ (rest : List (W × M)) (probs : List (W × WithBot ℚ)) (bs : WithBot ℚ) (bg : Option W),
      bs = mapMax probs →
      (bg = none ↔ bs = ⊥) →
      (∀ w, bg = some w → (probs.find? (fun p => p.2 == bs)).map Prod.fst = some w) →
      (recognizeLoop score x rest probs bs bg).1 =
        probs ++ rest.map (fun p => (p.1, scoreWord score p.2 x)) ∧
      ((recognizeLoop score x rest probs bs bg).2 = none ↔
        mapMax (recognizeLoop score x rest probs bs bg).1 = ⊥) ∧
      (∀ w, (recognizeLoop score x rest probs bs bg).2 = some w →
        ((recognizeLoop score x rest probs bs bg).1.find?
          (fun p => p.2 == mapMax (recognizeLoop score x rest probs bs bg).1)).map
            Prod.fst = some w) := by
  intro rest
  induction rest with
  | nil =>
    intro probs bs bg hbs hb hfind
    refine ⟨by simp [recognizeLoop], ?_, ?_⟩
    · show bg = none ↔ mapMax probs = ⊥
      rw [← hbs]; exact hb
    · intro w hw
      show (probs.find? (fun p => p.2 == mapMax probs)).map Prod.fst = some w
      rw [← hbs]; exact hfind w hw
  | cons q rest ih =>
    intro probs bs bg hbs hb hfind
    obtain ⟨w0, m0⟩ := q
    by_cases hlt : bs < scoreWord score m0 x
    · have hcall : recognizeLoop score x ((w0, m0) :: rest) probs bs bg =
        recognizeLoop score x rest (probs ++ [(w0, scoreWord score m0 x)])
          (scoreWord score m0 x) (some w0) := by
        simp [recognizeLoop, hlt]
      have inv1 : scoreWord score m0 x = mapMax (probs ++ [(w0, scoreWord score m0 x)]) := by
        rw [mapMax_append_single, ← hbs]
        exact (max_eq_right (le_of_lt hlt)).symm
      have hllne : scoreWord score m0 x ≠ ⊥ := by
        intro h0
        rw [h0] at hlt
        exact absurd hlt (not_lt_bot)
      have inv2 : (some w0 = none ↔ scoreWord score m0 x = ⊥) := by
        constructor
        · intro h; exact Option.noConfusion h
        · intro h; exact absurd h hllne
      have inv3 : ∀ w, some w0 = some w →
          ((probs ++ [(w0, scoreWord score m0 x)]).find?
            (fun p => p.2 == scoreWord score m0 x)).map Prod.fst = some w := by
        intro w hw
        obtain rfl : w0 = w := Option.some.inj hw
        have hprobs : probs.find? (fun p => p.2 == scoreWord score m0 x) = none := by
          rw [List.find?_eq_none]
          intro p hp
          have hple : p.2 ≤ bs := hbs ▸ le_mapMax_of_mem probs p hp
          have hne : p.2 ≠ scoreWord score m0 x := ne_of_lt (lt_of_le_of_lt hple hlt)
          simpa using hne
        rw [List.find?_append, hprobs]
        simp [List.find?]
      obtain ⟨g1, g2, g3⟩ := ih (probs ++ [(w0, scoreWord score m0 x)])
        (scoreWord score m0 x) (some w0) inv1 inv2 inv3
      rw [hcall]
      refine ⟨?_, g2, g3⟩
      rw [g1]
      simp
    · have hcall : recognizeLoop score x ((w0, m0) :: rest) probs bs bg =
        recognizeLoop score x rest (probs ++ [(w0, scoreWord score m0 x)]) bs bg := by
        simp [recognizeLoop, hlt]
      have inv1 : bs = mapMax (probs ++ [(w0, scoreWord score m0 x)]) := by
        rw [mapMax_append_single, ← hbs]
        exact (max_eq_left (le_of_not_lt hlt)).symm
      have inv3 : ∀ w, bg = some w →
          ((probs ++ [(w0, scoreWord score m0 x)]).find?
            (fun p => p.2 == bs)).map Prod.fst = some w := by
        intro w hw
        have h1 := hfind w hw
        obtain ⟨pr, hpr, hpr1⟩ := Option.map_eq_some'.mp h1
        rw [List.find?_append, hpr]
        simp [hpr1]
      obtain ⟨g1, g2, g3⟩ := ih (probs ++ [(w0, scoreWord score m0 x)]) bs bg inv1 hb inv3
      rw [hcall]
      refine ⟨?_, g2, g3⟩
      rw [g1]
      simp

theorem recognizeItem_probs {W M D : Type} [DecidableEq W] (score : M → D → Option ℚ)
    (models : List (W × M)) (x : D) :
    (recognizeItem score models x).1 =
      models.map (fun p => (p.1, scoreWord score p.2 x)) := by
  have h := recognizeLoop_spec score x models [] ⊥ none rfl (by simp)
    (by intro w hw; exact Option.noConfusion hw)
  simpa [recognizeItem] using h.1

theorem recognizeItem_none_iff {W M D : Type} [DecidableEq W] (score : M → D → Option ℚ)
    (models : List (W × M)) (x : D) :
    (recognizeItem score models x).2 = none ↔
      mapMax (recognizeItem score models x).1 = ⊥ :=
  (recognizeLoop_spec score x models [] ⊥ none rfl (by simp)
    (by intro w hw; exact Option.noConfusion hw)).2.1

theorem recognizeItem_argmax {W M D : Type} [DecidableEq W] (score : M → D → Option ℚ)
    (models : List (W × M)) (x : D) :
    ∀ w, (recognizeItem score models x).2 = some w →
      argmaxKey (recognizeItem score models x).1 = some w := by
  intro w hw
  have h := (recognizeLoop_spec score x models [] ⊥ none rfl (by simp)
    (by intro w1 hw1; exact Option.noConfusion hw1)).2.2 w hw
  exact h

theorem recognize_parts {W M D : Type} (score : M → D → Option ℚ) (models : List (W × M)) :
    ∀ items : List D,
      (recognize score models items).1.length = items.length ∧
      (recognize score models items).2.length = items.length ∧
      (∀ i x, items.get? i = some x →
        (recognize score models items).1.get? i = some (recognizeItem score models x).1 ∧
        (recognize score models items).2.get? i = some (recognizeItem score models x).2) := by
  intro items
  induction items with
  | nil =>
    refine ⟨rfl, rfl, ?_⟩
    intro i x h
    simp at h
  | cons y items ih =>
    refine ⟨?_, ?_, ?_⟩
    · simp [recognize, ih.1]
    · simp [recognize, ih.2.1]
    · intro i x h
      cases i with
      | zero =>
        obtain rfl : y = x := Option.some.inj h
        exact ⟨rfl, rfl⟩
      | succ j =>
        have hj : items.get? j = some x := h
        have hr := ih.2.2 j x hj
        exact ⟨hr.1, hr.2⟩

/-! ### Claims C2, C8, C10: the recognizer -/

/-- Statement of the amended claim C2: both output lists have the length of
the test item list and their entries correspond index-by-index to the input
items; for each item, whenever some category scored above negative infinity
the best guess is the first key attaining the maximum of the score map, and
when every score is negative infinity the best guess is None. -/
def RecognizeClaim {W M D : Type} [DecidableEq W] (score : M → D → Option ℚ)
    (models : List (W × M)) (items : List D) : Prop :=
  (recognize score models items).1.length = items.length ∧
  (recognize score models items).2.length = items.length ∧
  (∀ i x, items.get? i = some x →
    (recognize score models items).1.get? i = some (recognizeItem score models x).1 ∧
    (recognize score models items).2.get? i = some (recognizeItem score models x).2) ∧
  (∀ x, mapMax (recognizeItem score models x).1 ≠ ⊥ →
    (recognizeItem score models x).2 = argmaxKey (recognizeItem score models x).1) ∧
  (∀ x, mapMax (recognizeItem score models x).1 = ⊥ →
    (recognizeItem score models x).2 = none)

/-- Amended claim C2: recognize is length- and order-preserving, and the
best guess is the first-encountered argmax of the score map whenever the
maximum score is finite, and None when every score is negative infinity. -/
theorem recognize_amended_spec {W M D : Type} [DecidableEq W] (score : M → D → Option ℚ)
    (models : List (W × M)) (items : List D) :
    RecognizeClaim score models items := by
  obtain ⟨h1, h2, h3⟩ := recognize_parts score models items
  refine ⟨h1, h2, h3, ?_, ?_⟩
  · intro x hne
    cases hbg : (recognizeItem score models x).2 with
    | none => exact absurd ((recognizeItem_none_iff score models x).mp hbg) hne
    | some w => rw [recognizeItem_argmax score models x w hbg]
  · intro x hbot
    exact (recognizeItem_none_iff score models x).mpr hbot

/-- Counterexample to claim C2 as stated: with one model whose scoring
always fails, the score map is a singleton with value negative infinity, so
its argmax key is that category, but recognize produces best guess None. -/
theorem recognize_argmax_counterexample :
    (recognize (fun (_ : Nat) (_ : Nat) => (none : Option ℚ)) [(0, 0)] [0]).2 ≠
      List.map argmaxKey
        (recognize (fun (_ : Nat) (_ : Nat) => (none : Option ℚ)) [(0, 0)] [0]).1 := by
  decide

/-- Statement of claim C8: the score map of one item has exactly the
categories of the models mapping as keys, in order, and a category whose
scoring failed appears with value negative infinity instead of being
omitted. -/
def ScoreMapClaim {W M D : Type} [DecidableEq W] (score : M → D → Option ℚ)
    (models : List (W × M)) (x : D) : Prop :=
  (recognizeItem score models x).1 =
    models.map (fun p => (p.1, scoreWord score p.2 x)) ∧
  ∀ p ∈ models, score p.2 x = none →
    (p.1, (⊥ : WithBot ℚ)) ∈ (recognizeItem score models x).1

/-- Claim C8: every category of the models mapping gets exactly one entry in
the item's score map, scoring failures becoming negative infinity. -/
theorem recognize_scoremap_total {W M D : Type} [DecidableEq W] (score : M → D → Option ℚ)
    (models : List (W × M)) (x : D) : ScoreMapClaim score models x := by
  refine ⟨recognizeItem_probs score models x, ?_⟩
  intro p hp hsc
  rw [recognizeItem_probs]
  have he : (p.1, (⊥ : WithBot ℚ)) = (fun p => (p.1, scoreWord score p.2 x)) p := by
    simp [scoreWord, hsc]
  rw [he]
  exact List.mem_map_of_mem _ hp

/-- Statement of claim C10: the best guess of an item is None exactly when
every entry of its score map is negative infinity (in particular when every
model fails to score it); otherwise it is one of the categories of the
models mapping. -/
def NoneGuessClaim {W M D : Type} [DecidableEq W] (score : M → D → Option ℚ)
    (models : List (W × M)) (x : D) : Prop :=
  ((recognizeItem score models x).2 = none ↔
    ∀ p ∈ (recognizeItem score models x).1, p.2 = ⊥) ∧
  (∀ w, (recognizeItem score models x).2 = some w → w ∈ models.map Prod.fst) ∧
  ((∀ p ∈ models, score p.2 x = none) → (recognizeItem score models x).2 = none)

/-- Claim C10: the recognizer's best guess is None exactly when every score
is negative infinity, and otherwise is a key of the models mapping. -/
theorem recognize_none_guess {W M D : Type} [DecidableEq W] (score : M → D → Option ℚ)
    (models : List (W × M)) (x : D) : NoneGuessClaim score models x := by
  refine ⟨?_, ?_, ?_⟩
  · rw [recognizeItem_none_iff, mapMax_eq_bot_iff]
  · intro w hw
    have h3 := recognizeItem_argmax score models x w hw
    unfold argmaxKey at h3
    obtain ⟨pr, hpr, hpr1⟩ := Option.map_eq_some'.mp h3
    have hmem := List.mem_of_find?_eq_some hpr
    rw [recognizeItem_probs] at hmem
    obtain ⟨p0, hp0, hp0e⟩ := List.mem_map.mp hmem
    rw [← hpr1, ← hp0e]
    exact List.mem_map_of_mem Prod.fst hp0
  · intro hall
    rw [recognizeItem_none_iff, mapMax_eq_bot_iff]
    intro p hp
    rw [recognizeItem_probs] at hp
    obtain ⟨p0, hp0, hp0e⟩ := List.mem_map.mp hp
    rw [← hp0e]
    simp [scoreWord, hall p0 hp0]

/-- A recognizer score function for witnesses: model 0 scores successfully
with the item value, model 1 always raises. -/
def recScoreDemo (m : Nat) (d : Nat) : Option ℚ :=
  if m = 0 then some (d : ℚ) else none

/-- A recognizer models dictionary for witnesses. -/
def recModelsDemo : List (Nat × Nat) := [(0, 0), (1, 1)]

/-- A score function that always raises. -/
def recScoreFail : Nat → Nat → Option ℚ := fun _ _ => none

/-- Witness for the amended claim C2 at a concrete input: item 5 scores 5
under model 0 and fails under model 1, so the best guess is category 0. -/
theorem recognize_amended_spec_witness :
    (recognize recScoreDemo recModelsDemo [5]).2 = [some 0] ∧
    RecognizeClaim recScoreDemo recModelsDemo [5] :=
  ⟨by decide, recognize_amended_spec recScoreDemo recModelsDemo [5]⟩

/-- Witness for claim C8 at a concrete input: the score map lists both
categories, the failing one with negative infinity. -/
theorem recognize_scoremap_total_witness :
    (recognizeItem recScoreDemo recModelsDemo 5).1 = [(0, ((5 : ℚ) : WithBot ℚ)), (1, ⊥)] ∧
    ScoreMapClaim recScoreDemo recModelsDemo 5 :=
  ⟨by decide, recognize_scoremap_total recScoreDemo recModelsDemo 5⟩

/-- Witness for claim C10 at a concrete input: when every model fails to
score, the best guess is None. -/
theorem recognize_none_guess_witness :
    (recognizeItem recScoreFail recModelsDemo 5).2 = none ∧
    NoneGuessClaim recScoreFail recModelsDemo 5 :=
  ⟨by decide, recognize_none_guess recScoreFail recModelsDemo 5⟩
